import Mathlib

/-!
# Verification of `fenwick_tree.hpp`

A shallow embedding of the single-header Fenwick tree (binary indexed tree)
from `src/fenwick_tree.hpp`, together with proofs and refutations of the
specified properties.

Modelling conventions:
* The element type `T` (a C++ arithmetic type) is instantiated at `Int`;
  the buffer `std::vector<value_type> tree` becomes a `List Int` whose
  length is the logical size `n`.
* `signed_type` indices are modelled as `Int` so that the negative-index
  checks of the source are meaningful.
* Throwing `std::out_of_range` is modelled with `Except FTError`.
* The two walk loops of `update` use unchecked `tree[j]` indexing and a
  loop bound `j <= size()`, so a write to slot `size()` (undefined
  behaviour on the vector) is expressible; it is modelled by the `oob`
  outcome.  A walk whose index stops advancing (step `i & (-i) = 0` at
  `i = 0`) never terminates; this is modelled by the `diverge` outcome.
-/

namespace Fenwick

/-- Definition of `lsb w`, the `w & (-w)` of the source, the lowest set bit of `w`
(two's-complement arithmetic on a nonnegative `signed_type` value),
expressed on `Nat` as `w - (w &&& (w - 1))`. -/
def lsb (w : Nat) : Nat := w - (w &&& (w - 1))

/-! ## Bit-arithmetic groundwork

Every positive natural number `m` decomposes as
`m = a * 2 ^ (k + 1) + 2 ^ k`, where `2 ^ k` is its lowest set bit.
All reasoning about the bit formulas of the source (`i & (i+1)`,
`i | (i+1)`, `i & (-i)`) is routed through this decomposition. -/

theorem exists_decomp (m : Nat) (hm : 1 ≤ m) :
    ∃ a k, m = a * 2 ^ (k + 1) + 2 ^ k := by
  induction m using Nat.strong_induction_on with
  | _ m ih =>
    rcases Nat.even_or_odd m with he | ho
    · obtain ⟨t, ht⟩ := he
      have ht2 : m = 2 * t := by omega
      obtain ⟨a, k, hak⟩ := ih t (by omega) (by omega)
      refine ⟨a, k + 1, ?_⟩
      subst ht2; rw [hak]; ring
    · obtain ⟨t, ht⟩ := ho
      exact ⟨t, 0, by simpa using by omega⟩

theorem bit_true_eq (a : Nat) : Nat.bit true a = 2 * a + 1 := by
  simp [Nat.bit_val]

theorem bit_false_eq (a : Nat) : Nat.bit false a = 2 * a := by
  simp [Nat.bit_val]

/-- Clearing the lowest set bit: `m &&& (m - 1)`,
on the decomposition `m = a * 2^(k+1) + 2^k` it returns `a * 2^(k+1)`. -/
theorem and_pred_decomp : ∀ (k a : Nat),
    (a * 2 ^ (k + 1) + 2 ^ k) &&& (a * 2 ^ (k + 1) + 2 ^ k - 1) =
      a * 2 ^ (k + 1) := by
  intro k
  induction k with
  | zero =>
    intro a
    have h2 : a * 2 ^ 1 + 2 ^ 0 - 1 = Nat.bit false a := by
      rw [bit_false_eq]; simp; omega
    have h1 : a * 2 ^ 1 + 2 ^ 0 = Nat.bit true a := by
      rw [bit_true_eq]; simp; omega
    rw [h2, h1, Nat.land_bit]
    simp only [Bool.and_false, Nat.and_self, bit_false_eq]
    ring
  | succ k ih =>
    intro a
    have h2k : 1 ≤ 2 ^ k := Nat.one_le_two_pow
    have e1 : 2 ^ (k + 1) = 2 * 2 ^ k := by ring
    have e2 : 2 ^ (k + 2) = 2 * 2 ^ (k + 1) := by ring
    have hC : a * 2 ^ (k + 2) = 2 * (a * 2 ^ (k + 1)) := by ring
    have h2 : a * 2 ^ (k + 2) + 2 ^ (k + 1) - 1 =
        Nat.bit true (a * 2 ^ (k + 1) + 2 ^ k - 1) := by
      rw [bit_true_eq]; omega
    have h1 : a * 2 ^ (k + 2) + 2 ^ (k + 1) =
        Nat.bit false (a * 2 ^ (k + 1) + 2 ^ k) := by
      rw [bit_false_eq]; omega
    rw [show k + 1 + 1 = k + 2 from rfl, h2, h1, Nat.land_bit]
    simp only [Bool.false_and, ih, bit_false_eq]
    rw [hC]

/-- Setting all bits below the lowest set bit: `(m - 1) ||| m`,
on the decomposition it returns `a * 2^(k+1) + 2^(k+1) - 1`. -/
theorem pred_or_decomp : ∀ (k a : Nat),
    (a * 2 ^ (k + 1) + 2 ^ k - 1) ||| (a * 2 ^ (k + 1) + 2 ^ k) =
      a * 2 ^ (k + 1) + 2 ^ (k + 1) - 1 := by
  intro k
  induction k with
  | zero =>
    intro a
    have h2 : a * 2 ^ 1 + 2 ^ 0 - 1 = Nat.bit false a := by
      rw [bit_false_eq]; simp; omega
    have h1 : a * 2 ^ 1 + 2 ^ 0 = Nat.bit true a := by
      rw [bit_true_eq]; simp; omega
    rw [h2, h1, Nat.lor_bit]
    simp only [Bool.false_or, Nat.or_self, bit_true_eq]
    simp; omega
  | succ k ih =>
    intro a
    have h2k : 1 ≤ 2 ^ k := Nat.one_le_two_pow
    have h2k1 : 1 ≤ 2 ^ (k + 1) := Nat.one_le_two_pow
    have e1 : 2 ^ (k + 1) = 2 * 2 ^ k := by ring
    have e2 : 2 ^ (k + 2) = 2 * 2 ^ (k + 1) := by ring
    have hC : a * 2 ^ (k + 2) = 2 * (a * 2 ^ (k + 1)) := by ring
    have h2 : a * 2 ^ (k + 2) + 2 ^ (k + 1) - 1 =
        Nat.bit true (a * 2 ^ (k + 1) + 2 ^ k - 1) := by
      rw [bit_true_eq]; omega
    have h1 : a * 2 ^ (k + 2) + 2 ^ (k + 1) =
        Nat.bit false (a * 2 ^ (k + 1) + 2 ^ k) := by
      rw [bit_false_eq]; omega
    rw [show k + 1 + 1 = k + 2 from rfl, h2, h1, Nat.lor_bit]
    simp only [Bool.true_or, ih, bit_true_eq]
    omega

/-- On the decomposition `m = a * 2^(k+1) + 2^k`, the lowest set bit is
`2^k`. -/
theorem lsb_decomp (a k : Nat) : lsb (a * 2 ^ (k + 1) + 2 ^ k) = 2 ^ k := by
  unfold lsb
  rw [and_pred_decomp]
  exact Nat.add_sub_cancel_left _ _

theorem lsb_pos (m : Nat) (hm : 1 ≤ m) : 1 ≤ lsb m := by
  obtain ⟨a, k, rfl⟩ := exists_decomp m hm
  rw [lsb_decomp]
  exact Nat.one_le_two_pow

theorem lsb_le (m : Nat) : lsb m ≤ m := by
  unfold lsb; omega

theorem and_pred_eq_sub_lsb (m : Nat) : m &&& (m - 1) = m - lsb m := by
  unfold lsb
  have := Nat.and_le_right (n := m) (m := m - 1)
  omega

/-- The query-walk step of the source, `i & (i + 1)`, equals
`(i + 1) - lsb (i + 1)` (the 1-based predecessor walk). -/
theorem and_succ_eq (i : Nat) : i &&& (i + 1) = (i + 1) - lsb (i + 1) := by
  have h := and_pred_eq_sub_lsb (i + 1)
  simpa [Nat.land_comm] using h

/-- The construct-walk step of the source, `i | (i + 1)`, equals
`i + lsb (i + 1)`. -/
theorem or_succ_eq (p : Nat) : p ||| (p + 1) = p + lsb (p + 1) := by
  obtain ⟨a, k, hd⟩ := exists_decomp (p + 1) (by omega)
  have h2k : 1 ≤ 2 ^ k := Nat.one_le_two_pow
  have e1 : 2 ^ (k + 1) = 2 * 2 ^ k := by ring
  have hp : p = a * 2 ^ (k + 1) + 2 ^ k - 1 := by omega
  have hsucc : a * 2 ^ (k + 1) + 2 ^ k - 1 + 1 = a * 2 ^ (k + 1) + 2 ^ k := by
    omega
  rw [hp, hsucc, pred_or_decomp, lsb_decomp]
  omega

theorem or_succ_ge (p : Nat) : p + 1 ≤ p ||| (p + 1) := by
  rw [or_succ_eq]
  have := lsb_pos (p + 1) (by omega)
  omega

/-- The lowest set bit of a multiple of `2^t` is at least `2^t`. -/
theorem le_lsb_of_mul_two_pow (c t : Nat) (hc : 1 ≤ c) :
    2 ^ t ≤ lsb (c * 2 ^ t) := by
  obtain ⟨b, j, hb⟩ := exists_decomp c hc
  have hrw : c * 2 ^ t = b * 2 ^ (j + t + 1) + 2 ^ (j + t) := by
    rw [hb]; ring
  rw [hrw, lsb_decomp]
  exact Nat.pow_le_pow_right (by omega) (by omega)

/-- Walking one ascending step from `q ≥ 1` does not increase the
"interval floor" `q - lsb q`: `(q + lsb q) - lsb (q + lsb q) ≤ q - lsb q`. -/
theorem floor_step_le (q : Nat) (hq : 1 ≤ q) :
    (q + lsb q) - lsb (q + lsb q) ≤ q - lsb q := by
  obtain ⟨a, k, rfl⟩ := exists_decomp q hq
  rw [lsb_decomp]
  have hsum : a * 2 ^ (k + 1) + 2 ^ k + 2 ^ k = (a + 1) * 2 ^ (k + 1) := by
    ring
  rw [hsum]
  have hlsb : 2 ^ (k + 1) ≤ lsb ((a + 1) * 2 ^ (k + 1)) :=
    le_lsb_of_mul_two_pow (a + 1) (k + 1) (by omega)
  have hfloor : a * 2 ^ (k + 1) + 2 ^ k - 2 ^ k = a * 2 ^ (k + 1) :=
    Nat.add_sub_cancel _ _
  rw [hfloor]
  have e1 : (a + 1) * 2 ^ (k + 1) = a * 2 ^ (k + 1) + 2 ^ (k + 1) := by ring
  omega

/-- If `q` lies strictly inside the covering interval of `τ`
(`τ - lsb τ < q < τ`), one ascending step from `q` stays at or below `τ`. -/
theorem step_le_of_floor_lt (τ q : Nat) (h1 : τ - lsb τ < q) (h2 : q < τ) :
    q + lsb q ≤ τ := by
  have hτ : 1 ≤ τ := by omega
  obtain ⟨a, k, rfl⟩ := exists_decomp τ hτ
  rw [lsb_decomp] at h1
  have hfloor : a * 2 ^ (k + 1) + 2 ^ k - 2 ^ k = a * 2 ^ (k + 1) :=
    Nat.add_sub_cancel _ _
  rw [hfloor] at h1
  -- write q = a * 2^(k+1) + r with 1 ≤ r < 2^k
  set A := a * 2 ^ (k + 1) with hA
  have hr1 : 1 ≤ q - A := by omega
  have hrk : q - A < 2 ^ k := by omega
  obtain ⟨b, j, hb⟩ := exists_decomp (q - A) hr1
  have hjk : j < k := by
    by_contra hjk
    have h1' : 2 ^ k ≤ 2 ^ j := Nat.pow_le_pow_right (by omega) (by omega)
    have h2' : 2 ^ j ≤ q - A := by rw [hb]; exact Nat.le_add_left _ _
    exact Nat.lt_irrefl _ (Nat.lt_of_lt_of_le hrk (le_trans h1' h2'))
  -- q itself decomposes with lowest set bit 2^j
  have hexp : k + 1 = (k - j) + (j + 1) := by omega
  have hsplit : a * 2 ^ (k + 1) = (a * 2 ^ (k - j)) * 2 ^ (j + 1) := by
    rw [mul_assoc, ← pow_add, ← hexp]
  have hq : q = (a * 2 ^ (k - j) + b) * 2 ^ (j + 1) + 2 ^ j := by
    have : q = A + (q - A) := by omega
    rw [this, hb, hA, hsplit]; ring
  rw [hq, lsb_decomp, ← hq]
  -- q + 2^j = A + (b+1) * 2^(j+1) and (b+1) * 2^(j+1) ≤ 2^k
  have hqr : q + 2 ^ j = A + (b + 1) * 2 ^ (j + 1) := by
    have : q = A + (q - A) := by omega
    rw [this, hb]; ring
  have hbound : (b + 1) * 2 ^ (j + 1) ≤ 2 ^ k := by
    have hk : 2 ^ k = 2 ^ (k - j - 1) * 2 ^ (j + 1) := by
      rw [← pow_add]
      congr 1
      omega
    have hblt : b * 2 ^ (j + 1) < 2 ^ (k - j - 1) * 2 ^ (j + 1) := by
      have hle : b * 2 ^ (j + 1) ≤ q - A := by
        rw [hb]; exact Nat.le_add_right _ _
      exact Nat.lt_of_le_of_lt hle (by rw [← hk]; exact hrk)
    have : b < 2 ^ (k - j - 1) :=
      Nat.lt_of_mul_lt_mul_right hblt
    calc (b + 1) * 2 ^ (j + 1) ≤ 2 ^ (k - j - 1) * 2 ^ (j + 1) :=
          Nat.mul_le_mul_right _ (by omega)
      _ = 2 ^ k := hk.symm
  rw [hqr]
  exact Nat.add_le_add_left hbound A

/-! ## The embedded source operations -/

/-- The two exception kinds of the source: `std::out_of_range` thrown with
an "exceeds range" message (OutOfRange) and with a "negative range"
message (InvalidRange). -/
inductive FTError where
  | outOfRange
  | invalidRange
deriving DecidableEq, Repr

/-- The query loop of `sum(signed_type i)`:
`for (; i >= 0; i = (i & (i + 1)) - 1) result += tree.at(i);`.
The loop runs on a nonnegative index; it exits when `(i & (i+1)) - 1`
drops below zero, i.e. when `i &&& (i + 1) = 0`. -/
def sumWalk (tree : List Int) (i : Nat) : Int :=
  if _h : i &&& (i + 1) = 0 then tree.getD i 0
  else tree.getD i 0 + sumWalk tree ((i &&& (i + 1)) - 1)
termination_by i
decreasing_by
  have hle : i &&& (i + 1) ≤ i := Nat.and_le_left
  omega

/-- PrefixSum(i), the source's one-argument sum: bounds check (throwing
OutOfRange), then the query walk.  The dead `size() == 0` early return of
the source is kept. -/
def sum1 (tree : List Int) (i : Int) : Except FTError Int :=
  if i < 0 ∨ (tree.length : Int) ≤ i then .error .outOfRange
  else if tree.length = 0 then .ok 0
  else .ok (sumWalk tree i.toNat)

/-- PrefixSum(), the source's zero-argument sum: 0 on the empty structure, else
`sum(size() - 1)`. -/
def sum0 (tree : List Int) : Except FTError Int :=
  if tree.length = 0 then .ok 0
  else sum1 tree ((tree.length : Int) - 1)

/-- RangeSum(i, j), the source's two-argument sum: negative-range
check (throwing InvalidRange), then `upper = sum(j)`, then `--i` and, if
`i` is still nonnegative, `lower = sum(i)` and `upper - lower`. -/
def sum2 (tree : List Int) (i j : Int) : Except FTError Int :=
  if i > j then .error .invalidRange
  else
    match sum1 tree j with
    | .error e => .error e
    | .ok upper =>
      if i - 1 < 0 then .ok upper
      else
        match sum1 tree (i - 1) with
        | .error e => .error e
        | .ok lower => .ok (upper - lower)

/-- The inner loop of `construct`: starting at `index = idx`, repeatedly
`tree.at(index) += v; index = index | (index + 1)` while
`index < size()`. -/
def constructWalk (tree : List Int) (v : Int) (k : Nat) : List Int :=
  if h : k < tree.length then
    constructWalk (tree.set k (tree.getD k 0 + v)) v (k ||| (k + 1))
  else tree
termination_by tree.length - k
decreasing_by
  simp only [List.length_set]
  have := or_succ_ge k
  omega

/-- The iterator loop of `construct`: one walk per sequence element, the
logical index advancing with the iterator. -/
def constructLoop (tree : List Int) (s : List Int) (idx : Nat) : List Int :=
  match s with
  | [] => tree
  | v :: rest => constructLoop (constructWalk tree v idx) rest (idx + 1)

/-- Construction from a sequence: assign an all-zero buffer of the sequence
length, then add each element along its ancestor walk. -/
def construct (s : List Int) : List Int :=
  constructLoop (List.replicate s.length 0) s 0

/-- Outcome of one `update` walk loop
(`for (; w <= size(); w += w & (-w)) tree[w] += v;`):
`oob` when the body indexes `tree[size()]` (an out-of-bounds,
undefined-behaviour write through `operator[]`), `diverge` when the step
`w & (-w)` is zero (at `w = 0`) so the loop never terminates, and
`done` with the written buffer otherwise. -/
inductive WalkResult where
  | oob
  | diverge
  | done (tree : List Int)
deriving DecidableEq, Repr

/-- One `update` walk loop from start index `w` with buffer size `n`. -/
def updWalk (n : Nat) (v : Int) (tree : List Int) (w : Nat) : WalkResult :=
  if _hgt : n < w then .done tree
  else if _heq : w = n then .oob
  else if _h0 : w = 0 then .diverge
  else updWalk n v (tree.set w (tree.getD w 0 + v)) (w + lsb w)
termination_by n + 1 - w
decreasing_by
  have := lsb_pos w (by omega)
  omega

/-- Outcome of `update(i, j, value)`: the InvalidRange throw, the
`return false` rejection (buffer untouched), the two abnormal walk
outcomes, or `return true` with the final buffer. -/
inductive UpdResult where
  | thrown
  | returnedFalse (tree : List Int)
  | oobWrite
  | diverge
  | returnedTrue (tree : List Int)
deriving DecidableEq, Repr

/-- Update(i, j, value): negative-range check (throwing InvalidRange),
`++j`, the bounds check (`return false`), then the descending-cancel walk
from `j + 1` with `-value` and the walk from `i` with `value`. -/
def update (tree : List Int) (i j v : Int) : UpdResult :=
  if i > j then .thrown
  else
    if i < 0 ∨ j + 1 < 0 ∨ (tree.length : Int) ≤ i ∨
        (tree.length : Int) ≤ j + 1 then
      .returnedFalse tree
    else
      match updWalk tree.length (-v) tree (j + 1).toNat with
      | .oob => .oobWrite
      | .diverge => .diverge
      | .done t1 =>
        match updWalk tree.length v t1 i.toNat with
        | .oob => .oobWrite
        | .diverge => .diverge
        | .done t2 => .returnedTrue t2

/-! ## Fuel-indexed evaluation twins

The loops above are defined by well-founded recursion, which the kernel
does not reduce.  For evaluating them on concrete inputs, each loop gets
a structurally recursive twin taking an iteration budget, together with a
lemma that a sufficient budget reproduces the loop.  The twin of the
`update` walk returns `none` when the budget runs out, which is how the
non-terminating `i = 0` walk manifests at every finite budget. -/

def sumWalkF : Nat → List Int → Nat → Int
  | 0, _, _ => 0
  | fuel + 1, tree, i =>
    if i &&& (i + 1) = 0 then tree.getD i 0
    else tree.getD i 0 + sumWalkF fuel tree ((i &&& (i + 1)) - 1)

theorem sumWalk_eq_f (tree : List Int) :
    ∀ fuel i, i < fuel → sumWalk tree i = sumWalkF fuel tree i := by
  intro fuel
  induction fuel with
  | zero => intro i h; omega
  | succ fuel ih =>
    intro i h
    rw [sumWalk]
    by_cases h0 : i &&& (i + 1) = 0
    · simp [sumWalkF, h0]
    · have hle : i &&& (i + 1) ≤ i := Nat.and_le_left
      have := ih ((i &&& (i + 1)) - 1) (by omega)
      simp [sumWalkF, h0, this]

def sum1F (fuel : Nat) (tree : List Int) (i : Int) : Except FTError Int :=
  if i < 0 ∨ (tree.length : Int) ≤ i then .error .outOfRange
  else if tree.length = 0 then .ok 0
  else .ok (sumWalkF fuel tree i.toNat)

theorem sum1_eq_f (fuel : Nat) (tree : List Int) (i : Int)
    (h : i.toNat < fuel) : sum1 tree i = sum1F fuel tree i := by
  unfold sum1 sum1F
  rw [sumWalk_eq_f tree fuel i.toNat h]

def sum2F (fuel : Nat) (tree : List Int) (i j : Int) : Except FTError Int :=
  if i > j then .error .invalidRange
  else
    match sum1F fuel tree j with
    | .error e => .error e
    | .ok upper =>
      if i - 1 < 0 then .ok upper
      else
        match sum1F fuel tree (i - 1) with
        | .error e => .error e
        | .ok lower => .ok (upper - lower)

theorem sum2_eq_f (fuel : Nat) (tree : List Int) (i j : Int)
    (hj : j.toNat < fuel) (hi : (i - 1).toNat < fuel) :
    sum2 tree i j = sum2F fuel tree i j := by
  unfold sum2 sum2F
  rw [sum1_eq_f fuel tree j hj, sum1_eq_f fuel tree (i - 1) hi]

def constructWalkF : Nat → List Int → Int → Nat → List Int
  | 0, tree, _, _ => tree
  | fuel + 1, tree, v, k =>
    if k < tree.length then
      constructWalkF fuel (tree.set k (tree.getD k 0 + v)) v (k ||| (k + 1))
    else tree

theorem constructWalk_eq_f :
    ∀ (fuel : Nat) (tree : List Int) (v : Int) (k : Nat),
      tree.length - k < fuel →
      constructWalk tree v k = constructWalkF fuel tree v k := by
  intro fuel
  induction fuel with
  | zero => intro tree v k h; omega
  | succ fuel ih =>
    intro tree v k h
    rw [constructWalk]
    by_cases hk : k < tree.length
    · rw [dif_pos hk]
      have hstep := or_succ_ge k
      have hrec := ih (tree.set k (tree.getD k 0 + v)) v (k ||| (k + 1))
        (by simp only [List.length_set]; omega)
      conv_rhs => rw [constructWalkF]
      rw [if_pos hk]
      exact hrec
    · rw [dif_neg hk]
      conv_rhs => rw [constructWalkF]
      rw [if_neg hk]

def constructLoopF (fuel : Nat) (tree : List Int) (s : List Int)
    (idx : Nat) : List Int :=
  match s with
  | [] => tree
  | v :: rest => constructLoopF fuel (constructWalkF fuel tree v idx) rest (idx + 1)

theorem constructWalk_length (tree : List Int) (v : Int) :
    ∀ k, (constructWalk tree v k).length = tree.length := by
  suffices h : ∀ (m : Nat) (t : List Int) (k : Nat), t.length - k < m →
      (constructWalk t v k).length = t.length by
    intro k
    exact h (tree.length + 1) tree k (by omega)
  intro m
  induction m with
  | zero => intro t k h; omega
  | succ m ih =>
    intro t k h
    rw [constructWalk]
    by_cases hk : k < t.length
    · rw [dif_pos hk]
      have hstep := or_succ_ge k
      have hlen : (t.set k (t.getD k 0 + v)).length = t.length :=
        List.length_set t k _
      rw [ih (t.set k (t.getD k 0 + v)) (k ||| (k + 1)) (by rw [hlen]; omega)]
      exact hlen
    · rw [dif_neg hk]

theorem constructLoop_eq_f (fuel : Nat) :
    ∀ (s : List Int) (tree : List Int) (idx : Nat),
      tree.length < fuel →
      constructLoop tree s idx = constructLoopF fuel tree s idx := by
  intro s
  induction s with
  | nil => intro tree idx h; rfl
  | cons v rest ih =>
    intro tree idx h
    unfold constructLoop constructLoopF
    rw [← constructWalk_eq_f fuel tree v idx (by omega)]
    exact ih (constructWalk tree v idx) (idx + 1)
      (by rw [constructWalk_length]; omega)

theorem construct_eq_f (s : List Int) :
    construct s = constructLoopF (s.length + 1) (List.replicate s.length 0) s 0 := by
  unfold construct
  exact constructLoop_eq_f (s.length + 1) s _ 0 (by simp)

def updWalkF : Nat → Nat → Int → List Int → Nat → Option WalkResult
  | 0, _, _, _, _ => none
  | fuel + 1, n, v, tree, w =>
    if n < w then some (.done tree)
    else if w = n then some .oob
    else updWalkF fuel n v (tree.set w (tree.getD w 0 + v)) (w + lsb w)

/-- At every finite iteration budget, the walk starting at `w = 0` with
`1 ≤ n` has not yet exited: the step `w & (-w)` is `0`, so the loop never
terminates. -/
theorem updWalkF_zero_none :
    ∀ (fuel n : Nat) (v : Int) (tree : List Int), 1 ≤ n →
      updWalkF fuel n v tree 0 = none := by
  intro fuel
  induction fuel with
  | zero => intro n v tree h; rfl
  | succ fuel ih =>
    intro n v tree h
    have hstep : (0 : Nat) + lsb 0 = 0 := by simp [lsb]
    simp only [updWalkF, if_neg (by omega : ¬ n < 0), if_neg (by omega : ¬ 0 = n)]
    rw [hstep]
    exact ih n v _ h

theorem updWalk_eq_of_f :
    ∀ (fuel n : Nat) (v : Int) (tree : List Int) (w : Nat) (r : WalkResult),
      updWalkF fuel n v tree w = some r → updWalk n v tree w = r := by
  intro fuel
  induction fuel with
  | zero => intro n v tree w r h; exact absurd h (by simp [updWalkF])
  | succ fuel ih =>
    intro n v tree w r h
    rw [updWalk]
    by_cases hgt : n < w
    · simp only [updWalkF, if_pos hgt] at h
      rw [dif_pos hgt]
      exact Option.some_inj.mp h
    · by_cases heq : w = n
      · simp only [updWalkF, if_neg hgt, if_pos heq] at h
        rw [dif_neg hgt, dif_pos heq]
        exact Option.some_inj.mp h
      · by_cases h0 : w = 0
        · exfalso
          subst h0
          have hn1 : 1 ≤ n := by omega
          simp only [updWalkF, if_neg hgt, if_neg heq] at h
          have hstep : (0 : Nat) + lsb 0 = 0 := by simp [lsb]
          rw [hstep, updWalkF_zero_none fuel n _ _ hn1] at h
          exact absurd h (by simp)
        · simp only [updWalkF, if_neg hgt, if_neg heq] at h
          rw [dif_neg hgt, dif_neg heq, dif_neg h0]
          exact ih n v _ _ r h

def updateF (fuel : Nat) (tree : List Int) (i j v : Int) : Option UpdResult :=
  if i > j then some .thrown
  else
    if i < 0 ∨ j + 1 < 0 ∨ (tree.length : Int) ≤ i ∨
        (tree.length : Int) ≤ j + 1 then
      some (.returnedFalse tree)
    else
      match updWalkF fuel tree.length (-v) tree (j + 1).toNat with
      | none => none
      | some .oob => some .oobWrite
      | some .diverge => some .diverge
      | some (.done t1) =>
        match updWalkF fuel tree.length v t1 i.toNat with
        | none => none
        | some .oob => some .oobWrite
        | some .diverge => some .diverge
        | some (.done t2) => some (.returnedTrue t2)

theorem update_eq_of_f (fuel : Nat) (tree : List Int) (i j v : Int)
    (r : UpdResult) (h : updateF fuel tree i j v = some r) :
    update tree i j v = r := by
  unfold update
  unfold updateF at h
  by_cases hij : i > j
  · rw [if_pos hij] at h ⊢
    exact Option.some_inj.mp h
  · rw [if_neg hij] at h ⊢
    by_cases hb : i < 0 ∨ j + 1 < 0 ∨ (tree.length : Int) ≤ i ∨
        (tree.length : Int) ≤ j + 1
    · rw [if_pos hb] at h ⊢
      exact Option.some_inj.mp h
    · rw [if_neg hb] at h ⊢
      rcases hw1 : updWalkF fuel tree.length (-v) tree (j + 1).toNat with _ | r1
      · simp only [hw1] at h
        exact absurd h (by simp)
      · simp only [hw1] at h
        have e1 : updWalk tree.length (-v) tree (j + 1).toNat = r1 :=
          updWalk_eq_of_f fuel _ _ _ _ _ hw1
        rw [e1]
        cases r1 with
        | oob => exact Option.some_inj.mp h
        | diverge => exact Option.some_inj.mp h
        | done t1 =>
          rcases hw2 : updWalkF fuel tree.length v t1 i.toNat with _ | r2
          · simp only [hw2] at h
            exact absurd h (by simp)
          · simp only [hw2] at h
            have e2 : updWalk tree.length v t1 i.toNat = r2 :=
              updWalk_eq_of_f fuel _ _ _ _ _ hw2
            show (match updWalk tree.length v t1 i.toNat with
                  | WalkResult.oob => UpdResult.oobWrite
                  | WalkResult.diverge => UpdResult.diverge
                  | WalkResult.done t2 => UpdResult.returnedTrue t2) = r
            rw [e2]
            cases r2 with
            | oob => exact Option.some_inj.mp h
            | diverge => exact Option.some_inj.mp h
            | done t2 => exact Option.some_inj.mp h

/-! ## Walk analysis

The query walk of `sum` and the ancestor walk of `construct` are analysed
through explicit slot lists.  `qwList m` holds the 1-based positions
visited by the query walk from 1-based position `m`; `uwList n p` holds
the 0-based slots visited by the construct walk from slot `p` in a buffer
of size `n`.  The central facts are the tiling property of the query walk
(`qw_tiling`) and the interval characterisation of the construct walk
(`mem_uwList`), which together show that each construct walk meets each
query walk in exactly one slot when the query index is at or above the
construct index, and in none otherwise. -/

def qwList (m : Nat) : List Nat :=
  if _h : m = 0 then []
  else m :: qwList (m &&& (m - 1))
termination_by m
decreasing_by
  have hle : m &&& (m - 1) ≤ m - 1 := Nat.and_le_right
  omega

def uwList (n p : Nat) : List Nat :=
  if _h : p < n then p :: uwList n (p ||| (p + 1))
  else []
termination_by n - p
decreasing_by
  have := or_succ_ge p
  omega

/-- The query loop accumulates exactly the buffer values at the 0-based
slots `m - 1` for `m` in the 1-based query walk from `i + 1`. -/
theorem sumWalk_eq_qw (tree : List Int) :
    ∀ i, sumWalk tree i =
      ((qwList (i + 1)).map (fun m => tree.getD (m - 1) 0)).sum := by
  intro i
  induction i using Nat.strong_induction_on with
  | _ i ih =>
    rw [sumWalk, qwList, dif_neg (by omega : ¬ i + 1 = 0)]
    have hstep : (i + 1) &&& (i + 1 - 1) = i &&& (i + 1) := by
      simp only [Nat.add_sub_cancel]
      exact Nat.land_comm _ _
    rw [hstep]
    by_cases h0 : i &&& (i + 1) = 0
    · rw [dif_pos h0, h0, qwList, dif_pos rfl]
      simp
    · rw [dif_neg h0]
      have hle : i &&& (i + 1) ≤ i := Nat.and_le_left
      rw [ih ((i &&& (i + 1)) - 1) (by omega)]
      have hadd : (i &&& (i + 1)) - 1 + 1 = i &&& (i + 1) := by omega
      rw [hadd]
      simp [Nat.add_sub_cancel]

theorem qwList_mem_bounds : ∀ m m', m' ∈ qwList m → 1 ≤ m' ∧ m' ≤ m := by
  intro m
  induction m using Nat.strong_induction_on with
  | _ m ih =>
    intro m' hm
    rw [qwList] at hm
    by_cases h : m = 0
    · rw [dif_pos h] at hm; cases hm
    · rw [dif_neg h] at hm
      rcases List.mem_cons.mp hm with rfl | htail
      · omega
      · have hand : m &&& (m - 1) ≤ m - 1 := Nat.and_le_right
        have := ih (m &&& (m - 1)) (by omega) m' htail
        omega

/-- Tiling of the query walk: for `x ≥ 1`, exactly one visited position
`m'` satisfies `m' - lsb m' < x ≤ m'` when `x ≤ m`, and none otherwise
(the covering intervals of the visited slots partition `[1, m]`). -/
theorem qw_tiling : ∀ m x, 1 ≤ x →
    (qwList m).countP (fun m' => decide (m' - lsb m' < x ∧ x ≤ m')) =
      if x ≤ m then 1 else 0 := by
  intro m
  induction m using Nat.strong_induction_on with
  | _ m ih =>
    intro x hx
    rw [qwList]
    by_cases h : m = 0
    · subst h
      rw [dif_pos rfl, List.countP_nil, if_neg (by omega)]
    · rw [dif_neg h, List.countP_cons]
      have hA : m &&& (m - 1) = m - lsb m := and_pred_eq_sub_lsb m
      have hl1 : 1 ≤ lsb m := lsb_pos m (by omega)
      have hlm : lsb m ≤ m := lsb_le m
      rw [hA, ih (m - lsb m) (by omega) x hx]
      by_cases hx1 : x ≤ m - lsb m
      · have hnot : ¬ (m - lsb m < x ∧ x ≤ m) := by omega
        simp [hnot, hx1, show x ≤ m by omega]
      · by_cases hx2 : x ≤ m
        · have hyes : m - lsb m < x ∧ x ≤ m := by omega
          simp [hyes, hx1, hx2]
        · have hnot : ¬ (m - lsb m < x ∧ x ≤ m) := by omega
          simp [hnot, hx1, hx2]

/-- Every slot visited by the construct walk from `p` lies in `[p, n)`,
and its (1-based) covering-interval floor is at most that of `p`. -/
theorem mem_uwList_strong (n : Nat) : ∀ (d p s : Nat), n - p ≤ d →
    s ∈ uwList n p →
    p ≤ s ∧ s < n ∧ (s + 1) - lsb (s + 1) ≤ (p + 1) - lsb (p + 1) := by
  intro d
  induction d with
  | zero =>
    intro p s hd hmem
    rw [uwList, dif_neg (by omega)] at hmem
    cases hmem
  | succ d ih =>
    intro p s hd hmem
    rw [uwList] at hmem
    by_cases hp : p < n
    · rw [dif_pos hp] at hmem
      rcases List.mem_cons.mp hmem with rfl | htail
      · exact ⟨le_refl _, hp, le_refl _⟩
      · have hstep := or_succ_ge p
        obtain ⟨h1, h2, h3⟩ := ih (p ||| (p + 1)) s (by omega) htail
        refine ⟨by omega, h2, le_trans h3 ?_⟩
        rw [or_succ_eq p]
        have he : p + lsb (p + 1) + 1 = (p + 1) + lsb (p + 1) := by omega
        rw [he]
        exact floor_step_le (p + 1) (by omega)
    · rw [dif_neg hp] at hmem
      cases hmem

/-- Conversely, the construct walk from `p` visits every slot `s ∈ [p, n)`
whose covering interval contains `p` (i.e. `(s+1) - lsb (s+1) ≤ p`). -/
theorem mem_uwList_of (n : Nat) : ∀ (d p s : Nat), s - p ≤ d → p ≤ s →
    s < n → (s + 1) - lsb (s + 1) ≤ p → s ∈ uwList n p := by
  intro d
  induction d with
  | zero =>
    intro p s hd h1 h2 _h3
    have hsp : s = p := by omega
    subst hsp
    rw [uwList, dif_pos h2]
    exact List.mem_cons_self _ _
  | succ d ih =>
    intro p s hd h1 h2 h3
    by_cases heq : p = s
    · subst heq
      rw [uwList, dif_pos h2]
      exact List.mem_cons_self _ _
    · have hps : p < s := by omega
      have hlsbs : 1 ≤ lsb (s + 1) := lsb_pos _ (by omega)
      have hstep : (p + 1) + lsb (p + 1) ≤ s + 1 :=
        step_le_of_floor_lt (s + 1) (p + 1) (by omega) (by omega)
      have hlsbp : 1 ≤ lsb (p + 1) := lsb_pos _ (by omega)
      have hp' : p ||| (p + 1) ≤ s := by rw [or_succ_eq]; omega
      have hmem : s ∈ uwList n (p ||| (p + 1)) := by
        refine ih (p ||| (p + 1)) s ?_ hp' h2 ?_
        · rw [or_succ_eq]; omega
        · have := or_succ_ge p
          omega
      rw [uwList, dif_pos (by omega : p < n)]
      exact List.mem_cons_of_mem _ hmem

/-- Slot membership in the construct walk, characterised. -/
theorem mem_uwList (n p s : Nat) :
    s ∈ uwList n p ↔ p ≤ s ∧ s < n ∧ (s + 1) - lsb (s + 1) ≤ p := by
  constructor
  · intro h
    obtain ⟨h1, h2, h3⟩ := mem_uwList_strong n (n - p) p s (le_refl _) h
    have h4 : 1 ≤ lsb (p + 1) := lsb_pos _ (by omega)
    exact ⟨h1, h2, by omega⟩
  · rintro ⟨h1, h2, h3⟩
    exact mem_uwList_of n (s - p) p s (le_refl _) h1 h2 h3

theorem getD_set_self (tree : List Int) (p : Nat) (x : Int)
    (h : p < tree.length) : (tree.set p x).getD p 0 = x := by
  simp [List.getD, List.getElem?_set_self h]

theorem getD_set_ne (tree : List Int) (p s : Nat) (x : Int) (h : p ≠ s) :
    (tree.set p x).getD s 0 = tree.getD s 0 := by
  simp [List.getD, List.getElem?_set_ne h]

/-- Effect of one construct walk on each buffer slot: slot `s` gains `v`
exactly when the walk visits it. -/
theorem constructWalk_getD (v : Int) :
    ∀ (d : Nat) (tree : List Int) (p : Nat), tree.length - p ≤ d →
      ∀ s, (constructWalk tree v p).getD s 0 =
        tree.getD s 0 + (if s ∈ uwList tree.length p then v else 0) := by
  intro d
  induction d with
  | zero =>
    intro tree p hd s
    rw [constructWalk, dif_neg (by omega), uwList, dif_neg (by omega)]
    simp
  | succ d ih =>
    intro tree p hd s
    rw [constructWalk]
    by_cases hp : p < tree.length
    · rw [dif_pos hp]
      have hlen : (tree.set p (tree.getD p 0 + v)).length = tree.length :=
        List.length_set tree p _
      have hstep := or_succ_ge p
      rw [ih (tree.set p (tree.getD p 0 + v)) (p ||| (p + 1))
        (by rw [hlen]; omega) s]
      rw [hlen]
      conv_rhs => rw [uwList, dif_pos hp]
      by_cases hs : s = p
      · subst hs
        have hnotmem : s ∉ uwList tree.length (s ||| (s + 1)) := by
          intro hc
          have := (mem_uwList_strong tree.length
            (tree.length - (s ||| (s + 1))) (s ||| (s + 1)) s (le_refl _) hc).1
          omega
        rw [getD_set_self tree s _ hp, if_neg hnotmem,
          if_pos (List.mem_cons_self s _)]
        ring
      · rw [getD_set_ne tree p s _ (fun hc => hs hc.symm)]
        have hmem : (s ∈ p :: uwList tree.length (p ||| (p + 1))) ↔
            (s ∈ uwList tree.length (p ||| (p + 1))) := by
          simp [List.mem_cons, hs]
        by_cases hm : s ∈ uwList tree.length (p ||| (p + 1))
        · rw [if_pos hm, if_pos (hmem.mpr hm)]
        · rw [if_neg hm, if_neg (fun hc => hm (hmem.mp hc))]
    · rw [dif_neg hp, uwList, dif_neg hp]
      simp

theorem sum_map_add (l : List Nat) (f g : Nat → Int) :
    (l.map (fun m => f m + g m)).sum = (l.map f).sum + (l.map g).sum := by
  induction l with
  | nil => simp
  | cons a l ih => simp [ih]; ring

theorem sum_map_ite (l : List Nat) (P : Nat → Prop) [DecidablePred P]
    (v : Int) :
    (l.map (fun m => if P m then v else 0)).sum =
      ((l.countP (fun m => decide (P m))) : Int) * v := by
  induction l with
  | nil => simp
  | cons a l ih =>
    rw [List.map_cons, List.sum_cons, ih, List.countP_cons]
    by_cases h : P a
    · simp [h]; ring
    · simp [h]

/-- Adding `v` along the construct walk from slot `p` changes the query
result at index `i < n` by `v` exactly when `p ≤ i`. -/
theorem sumWalk_constructWalk (tree : List Int) (v : Int) (p i : Nat)
    (hi : i < tree.length) :
    sumWalk (constructWalk tree v p) i =
      sumWalk tree i + (if p ≤ i then v else 0) := by
  rw [sumWalk_eq_qw, sumWalk_eq_qw]
  have hmap : ∀ m ∈ qwList (i + 1),
      (constructWalk tree v p).getD (m - 1) 0 =
        tree.getD (m - 1) 0 +
          (if (m - 1) ∈ uwList tree.length p then v else 0) :=
    fun m _hm =>
      constructWalk_getD v tree.length tree p (by omega) (m - 1)
  rw [List.map_congr_left hmap, sum_map_add, sum_map_ite]
  have hcount : (qwList (i + 1)).countP
      (fun m => decide ((m - 1) ∈ uwList tree.length p)) =
      (qwList (i + 1)).countP
        (fun m' => decide (m' - lsb m' < p + 1 ∧ p + 1 ≤ m')) := by
    apply List.countP_congr
    intro m hm
    obtain ⟨hm1, hm2⟩ := qwList_mem_bounds (i + 1) m hm
    simp only [decide_eq_true_eq]
    rw [mem_uwList]
    have hsub : m - 1 + 1 = m := by omega
    rw [hsub]
    constructor
    · rintro ⟨a, b, c⟩
      exact ⟨by omega, by omega⟩
    · rintro ⟨a, b⟩
      exact ⟨by omega, by omega, by omega⟩
  rw [hcount, qw_tiling (i + 1) (p + 1) (by omega)]
  by_cases hpi : p ≤ i
  · rw [if_pos (by omega : p + 1 ≤ i + 1), if_pos hpi]
    simp
  · rw [if_neg (by omega : ¬ p + 1 ≤ i + 1), if_neg hpi]
    simp

/-- Effect of the whole construct loop on a query at index `i`: the
elements at logical indices `idx, idx+1, ...` up to `i` are added. -/
theorem sumWalk_constructLoop :
    ∀ (s : List Int) (tree : List Int) (idx i : Nat), i < tree.length →
      sumWalk (constructLoop tree s idx) i =
        sumWalk tree i + (s.take (i + 1 - idx)).sum := by
  intro s
  induction s with
  | nil => intro tree idx i hi; simp [constructLoop]
  | cons v rest ih =>
    intro tree idx i hi
    show sumWalk (constructLoop (constructWalk tree v idx) rest (idx + 1)) i = _
    rw [ih (constructWalk tree v idx) (idx + 1) i
      (by rw [constructWalk_length]; omega)]
    rw [sumWalk_constructWalk tree v idx i hi]
    by_cases hidx : idx ≤ i
    · rw [if_pos hidx]
      have htake : i + 1 - idx = (i - idx) + 1 := by omega
      rw [htake, List.take_succ_cons, List.sum_cons]
      have : i + 1 - (idx + 1) = i - idx := by omega
      rw [this]
      ring
    · rw [if_neg hidx]
      have h1 : i + 1 - idx = 0 := by omega
      have h2 : i + 1 - (idx + 1) = 0 := by omega
      rw [h1, h2]
      simp

theorem getD_replicate (n k : Nat) : (List.replicate n (0 : Int)).getD k 0 = 0 := by
  by_cases h : k < n
  · rw [List.getD_eq_getElem _ _
      (show k < (List.replicate n (0 : Int)).length by simpa using h)]
    simp
  · rw [List.getD_eq_default _ _ (by simpa using h)]

theorem sumWalk_replicate_zero (n i : Nat) :
    sumWalk (List.replicate n (0 : Int)) i = 0 := by
  rw [sumWalk_eq_qw]
  apply List.sum_eq_zero
  intro x hx
  obtain ⟨m, _hm, rfl⟩ := List.mem_map.mp hx
  exact getD_replicate n (m - 1)

theorem construct_length (s : List Int) : (construct s).length = s.length := by
  unfold construct
  suffices h : ∀ (l : List Int) (tree : List Int) (idx : Nat),
      (constructLoop tree l idx).length = tree.length by
    rw [h]; simp
  intro l
  induction l with
  | nil => intro tree idx; rfl
  | cons v rest ih =>
    intro tree idx
    show (constructLoop (constructWalk tree v idx) rest (idx + 1)).length = _
    rw [ih, constructWalk_length]

/-- The construction invariant: after `construct s`, the query walk at
any valid index `i` returns the prefix sum of `s` over `[0, i]`. -/
theorem construct_sumWalk (s : List Int) (i : Nat) (hi : i < s.length) :
    sumWalk (construct s) i = (s.take (i + 1)).sum := by
  unfold construct
  rw [sumWalk_constructLoop s (List.replicate s.length 0) 0 i (by simpa using hi)]
  rw [sumWalk_replicate_zero]
  simp

/-- PrefixSum on a freshly constructed structure, for a valid index. -/
theorem sum1_construct (s : List Int) (i : Int) (h0 : 0 ≤ i)
    (hn : i < (s.length : Int)) :
    sum1 (construct s) i = .ok ((s.take (i.toNat + 1)).sum) := by
  unfold sum1
  rw [construct_length]
  rw [if_neg (by omega)]
  rw [if_neg (by omega)]
  rw [construct_sumWalk s i.toNat (by omega)]

theorem take_sub (s : List Int) (i j : Nat) (hij : i ≤ j) :
    ((s.drop i).take (j - i + 1)).sum = (s.take (j + 1)).sum - (s.take i).sum := by
  have h : j + 1 = i + (j - i + 1) := by omega
  conv_rhs => rw [h, List.take_add, List.sum_append]
  ring

/-- A completed `update` walk preserves the buffer length and every slot
strictly below its start index. -/
theorem updWalk_done (n : Nat) (v : Int) :
    ∀ (d : Nat) (tree : List Int) (w : Nat), n + 1 - w ≤ d →
      ∀ t', updWalk n v tree w = .done t' →
        t'.length = tree.length ∧ ∀ s, s < w → t'.getD s 0 = tree.getD s 0 := by
  intro d
  induction d with
  | zero =>
    intro tree w hd t' h
    rw [updWalk, dif_pos (by omega : n < w)] at h
    cases h
    exact ⟨rfl, fun s _ => rfl⟩
  | succ d ih =>
    intro tree w hd t' h
    rw [updWalk] at h
    by_cases hgt : n < w
    · rw [dif_pos hgt] at h
      cases h
      exact ⟨rfl, fun s _ => rfl⟩
    · rw [dif_neg hgt] at h
      by_cases heq : w = n
      · rw [dif_pos heq] at h; cases h
      · rw [dif_neg heq] at h
        by_cases h0 : w = 0
        · rw [dif_pos h0] at h; cases h
        · rw [dif_neg h0] at h
          have hlsb : 1 ≤ lsb w := lsb_pos w (by omega)
          obtain ⟨hlen, hsl⟩ := ih (tree.set w (tree.getD w 0 + v))
            (w + lsb w) (by omega) t' h
          refine ⟨by rw [hlen, List.length_set], fun s hs => ?_⟩
          rw [hsl s (by omega), getD_set_ne tree w s _ (by omega)]

/-- The query walk reads only slots at or below its start index. -/
theorem sumWalk_congr (t1 t2 : List Int) :
    ∀ i, (∀ s, s ≤ i → t1.getD s 0 = t2.getD s 0) →
      sumWalk t1 i = sumWalk t2 i := by
  intro i
  induction i using Nat.strong_induction_on with
  | _ i ih =>
    intro hs
    rw [sumWalk]
    conv_rhs => rw [sumWalk]
    by_cases h0 : i &&& (i + 1) = 0
    · rw [dif_pos h0, dif_pos h0, hs i (le_refl _)]
    · rw [dif_neg h0, dif_neg h0, hs i (le_refl _)]
      have hle : i &&& (i + 1) ≤ i := Nat.and_le_left
      rw [ih ((i &&& (i + 1)) - 1) (by omega)
        (fun s hsle => hs s (by omega))]

/-- Inversion of a successful `update`: the checks passed and both walks
completed. -/
theorem update_returnedTrue_inv (tree : List Int) (i j v : Int)
    (t2 : List Int) (h : update tree i j v = .returnedTrue t2) :
    i ≤ j ∧ 0 ≤ i ∧ i < (tree.length : Int) ∧
      j + 1 < (tree.length : Int) ∧
      ∃ t1, updWalk tree.length (-v) tree (j + 1).toNat = .done t1 ∧
        updWalk tree.length v t1 i.toNat = .done t2 := by
  unfold update at h
  by_cases hij : i > j
  · rw [if_pos hij] at h; cases h
  · rw [if_neg hij] at h
    by_cases hb : i < 0 ∨ j + 1 < 0 ∨ (tree.length : Int) ≤ i ∨
        (tree.length : Int) ≤ j + 1
    · rw [if_pos hb] at h; cases h
    · rw [if_neg hb] at h
      push_neg at hb
      obtain ⟨hb1, _hb2, hb3, hb4⟩ := hb
      rcases hw1 : updWalk tree.length (-v) tree (j + 1).toNat with _ | _ | t1
      · simp only [hw1] at h; cases h
      · simp only [hw1] at h; cases h
      · simp only [hw1] at h
        rcases hw2 : updWalk tree.length v t1 i.toNat with _ | _ | t2'
        · simp only [hw2] at h; cases h
        · simp only [hw2] at h; cases h
        · simp only [hw2] at h
          cases h
          exact ⟨by omega, by omega, by omega, by omega, t1, rfl, hw2⟩

/-- Specification-side prefix sum of the logical sequence over `[0, i]`. -/
def prefixSpec (s : List Int) (i : Nat) : Int := (s.take (i + 1)).sum

/-- Specification-side sum of the logical sequence over the inclusive
index range `[i, j]`. -/
def rangeSpec (s : List Int) (i j : Nat) : Int :=
  ((s.drop i).take (j - i + 1)).sum

/-- PrefixSum with the bounds check passed: the walk runs. -/
theorem sum1_ok (tree : List Int) (i : Int) (h0 : 0 ≤ i)
    (hn : i < (tree.length : Int)) :
    sum1 tree i = .ok (sumWalk tree i.toNat) := by
  unfold sum1
  rw [if_neg (by omega), if_neg (by omega : ¬ tree.length = 0)]

/-! ## The claims -/

/-- C1: for every finite sequence `S` and every logical index
`0 ≤ i < n`, after constructing the structure from `S`, `PrefixSum(i)`
returns the sum of the logical values `S[0], ..., S[i]` — the prefix-sum
invariant holds after construction. -/
theorem construct_prefixSum (s : List Int) (i : Int) (h0 : 0 ≤ i)
    (hn : i < (s.length : Int)) :
    sum1 (construct s) i = .ok (prefixSpec s i.toNat) :=
  sum1_construct s i h0 hn

/-- Witness for C1 at `S = [1, 6, 2, 4, 3, 5]`, `i = 3`
(the spec's own concrete scenario: `PrefixSum(3) = 13`). -/
theorem construct_prefixSum_witness :
    sum1 (construct [1, 6, 2, 4, 3, 5]) 3 =
        .ok (prefixSpec [1, 6, 2, 4, 3, 5] 3) ∧
      prefixSpec [1, 6, 2, 4, 3, 5] 3 = 13 :=
  ⟨construct_prefixSum [1, 6, 2, 4, 3, 5] 3 (by decide) (by decide), by rfl⟩

/-- C2 (the code violates it): on the structure built from
`[1, 2, 3, 4, 5]`, `update(1, 3, 7)` succeeds, yet `RangeSum(1, 3)`
stays at `9` instead of increasing by `7 × 3 = 21`: the mixed
0-based/1-based stepping of the update walks does not implement the
documented range-additive semantics (`// equals array[3] += -1` in the
bundled example generalises to adding `delta` on `[i, j]`). -/
theorem update_rangeSum_bug :
    update (construct [1, 2, 3, 4, 5]) 1 3 7 =
        .returnedTrue [1, 10, 10, 10, 5] ∧
      sum2 (construct [1, 2, 3, 4, 5]) 1 3 = .ok 9 ∧
      sum2 [1, 10, 10, 10, 5] 1 3 = .ok 9 := by
  refine ⟨?_, ?_, ?_⟩
  · rw [construct_eq_f]
    exact update_eq_of_f 20 _ _ _ _ _ (by decide)
  · rw [construct_eq_f, sum2_eq_f 20 _ _ _ (by decide) (by decide)]
    rfl
  · rw [sum2_eq_f 20 _ _ _ (by decide) (by decide)]
    rfl

/-- C3 counterexample: on the structure built from `[1, 2, 3, 4, 5]`,
`update(1, 2, 7)` succeeds (`i = 1`, `j' = 3`), but `PrefixSum(2)` — an
index in `[i, j')` — changes from `6` to `20` (by `14`, not by
`delta = 7`), and `PrefixSum(3)` — an index `≥ j'` — changes from `10`
to `3` instead of being unchanged: the two walks do not cancel. -/
theorem update_cancel_cex :
    update (construct [1, 2, 3, 4, 5]) 1 2 7 =
        .returnedTrue [1, 10, 10, 3, 5] ∧
      sum1 (construct [1, 2, 3, 4, 5]) 2 = .ok 6 ∧
      sum1 [1, 10, 10, 3, 5] 2 = .ok 20 ∧
      sum1 (construct [1, 2, 3, 4, 5]) 3 = .ok 10 ∧
      sum1 [1, 10, 10, 3, 5] 3 = .ok 3 := by
  refine ⟨?_, ?_, ?_, ?_, ?_⟩
  · rw [construct_eq_f]
    exact update_eq_of_f 20 _ _ _ _ _ (by decide)
  · rw [construct_eq_f, sum1_eq_f 20 _ _ (by decide)]; rfl
  · rw [sum1_eq_f 20 _ _ (by decide)]; rfl
  · rw [construct_eq_f, sum1_eq_f 20 _ _ (by decide)]; rfl
  · rw [sum1_eq_f 20 _ _ (by decide)]; rfl

/-- C3 as amended: a successful `update(i, j, delta)` leaves every
`PrefixSum(k)` with `0 ≤ k < i` unchanged (both walks only touch slots
at or above `i`); neither the uniform increase by `delta` on `[i, j')`
nor the cancellation at and above `j'` holds in general. -/
theorem update_preserves_prefix_below (tree : List Int) (i j v : Int)
    (t2 : List Int) (h : update tree i j v = .returnedTrue t2) (k : Nat)
    (hk : (k : Int) < i) : sum1 t2 k = sum1 tree k := by
  obtain ⟨hij, h0, hilen, hjlen, t1, hw1, hw2⟩ :=
    update_returnedTrue_inv tree i j v t2 h
  obtain ⟨hlen1, hsl1⟩ := updWalk_done tree.length (-v)
    (tree.length + 1) tree (j + 1).toNat (by omega) t1 hw1
  obtain ⟨hlen2, hsl2⟩ := updWalk_done tree.length v
    (tree.length + 1) t1 i.toNat (by omega) t2 hw2
  have hki : k < i.toNat := by omega
  have hkj : k < (j + 1).toNat := by omega
  have hgetD : ∀ s, s ≤ k → t2.getD s 0 = tree.getD s 0 := fun s hs => by
    rw [hsl2 s (by omega), hsl1 s (by omega)]
  unfold sum1
  rw [hlen2, hlen1]
  by_cases hc : (k : Int) < 0 ∨ (tree.length : Int) ≤ (k : Int)
  · rw [if_pos hc, if_pos hc]
  · rw [if_neg hc, if_neg hc]
    by_cases hz : tree.length = 0
    · rw [if_pos hz, if_pos hz]
    · rw [if_neg hz, if_neg hz]
      congr 1
      have htn : ((k : Int)).toNat = k := by omega
      rw [htn]
      exact sumWalk_congr t2 tree k hgetD

/-- Witness for the amended C3: after the successful `update(1, 2, 7)`
on the structure built from `[1, 2, 3, 4, 5]`, `PrefixSum(0)` is
unchanged. -/
theorem update_preserves_prefix_below_witness :
    update (construct [1, 2, 3, 4, 5]) 1 2 7 =
        .returnedTrue [1, 10, 10, 3, 5] ∧
      sum1 [1, 10, 10, 3, 5] 0 = sum1 (construct [1, 2, 3, 4, 5]) 0 := by
  have h : update (construct [1, 2, 3, 4, 5]) 1 2 7 =
      .returnedTrue [1, 10, 10, 3, 5] := by
    rw [construct_eq_f]
    exact update_eq_of_f 20 _ _ _ _ _ (by decide)
  exact ⟨h, update_preserves_prefix_below (construct [1, 2, 3, 4, 5]) 1 2 7
    [1, 10, 10, 3, 5] h 0 (by decide)⟩

/-- C4 (the code violates it): `update(0, 1, 5)` on a size-3 structure
passes the range and bounds checks, but the second walk loop starts at
`i = 0`, where the step `i += i & (-i)` adds `0`: the loop never
advances, so the operation does not terminate.  The model marks the walk
as divergent, and the fuel-indexed loop exits at no finite iteration
budget. -/
theorem update_zero_diverges :
    update ([0, 0, 0] : List Int) 0 1 5 = .diverge ∧
      ∀ fuel : Nat, updWalkF fuel 3 5 [0, 0, -5] 0 = none := by
  constructor
  · have e1 : updWalk 3 (-5) [0, 0, 0] 2 = .done [0, 0, -5] :=
      updWalk_eq_of_f 20 _ _ _ _ _ (by decide)
    have e2 : updWalk 3 5 [0, 0, -5] 0 = .diverge := by
      rw [updWalk]; simp
    simp [update, e1, e2]
  · intro fuel
    exact updWalkF_zero_none fuel 3 5 _ (by omega)

/-- C5 (the code violates it): `update(1, 4, 7)` on a size-6 structure
passes all checks and returns true in the source, but the first walk
steps `5 → 6` and the loop guard `j <= size()` admits `j = 6 = size()`,
so the body writes `tree[6]`, one slot past the end of the buffer: the
out-of-bounds branch of a checked embedding is reachable. -/
theorem update_oob_write :
    update (List.replicate 6 (0 : Int)) 1 4 7 = .oobWrite :=
  update_eq_of_f 20 _ _ _ _ _ (by decide)

/-- C6 counterexample: the claim extends to structures "reflecting any
successful updates since" construction, and there it fails.  On the
structure built from `[1, 2, 3, 4, 5]`, `update(1, 3, 7)` succeeds, so
the updated logical array is `[1, 9, 10, 11, 5]` with
`S[1..3] = 9 + 10 + 11 = 30`, yet `RangeSum(1, 3)` on the updated buffer
returns `9`, not the sum of the updated logical elements. -/
theorem rangeSum_after_update_cex :
    update (construct [1, 2, 3, 4, 5]) 1 3 7 =
        .returnedTrue [1, 10, 10, 10, 5] ∧
      rangeSpec [1, 9, 10, 11, 5] 1 3 = 30 ∧
      sum2 [1, 10, 10, 10, 5] 1 3 = .ok 9 ∧
      sum2 [1, 10, 10, 10, 5] 1 3 ≠ .ok (rangeSpec [1, 9, 10, 11, 5] 1 3) := by
  have h3 : sum2 ([1, 10, 10, 10, 5] : List Int) 1 3 = .ok 9 := by
    rw [sum2_eq_f 20 _ _ _ (by decide) (by decide)]; rfl
  refine ⟨?_, rfl, h3, ?_⟩
  · rw [construct_eq_f]
    exact update_eq_of_f 20 _ _ _ _ _ (by decide)
  · rw [h3]
    intro h
    exact absurd (Except.ok.inj h) (by decide)

/-- C6 as amended: for a structure freshly built from `S` — with no
updates since construction; after a successful update the identity can
fail, as the buggy walks desynchronise the buffer from any updated
logical array — and `0 ≤ i ≤ j < n`, `RangeSum(i, j)` returns the sum of
the logical elements `S[i..j]`; moreover on any buffer state
`RangeSum(i, j)` equals `PrefixSum(j) - PrefixSum(i-1)` as computed by
the query walk, with the lower term omitted when `i = 0`. -/
theorem rangeSum_correct :
    (∀ (s : List Int) (i j : Int), 0 ≤ i → i ≤ j → j < (s.length : Int) →
      sum2 (construct s) i j = .ok (rangeSpec s i.toNat j.toNat)) ∧
    (∀ (tree : List Int) (i j : Int), 0 ≤ i → i ≤ j →
      j < (tree.length : Int) →
      sum2 tree i j = .ok (sumWalk tree j.toNat -
        (if i = 0 then 0 else sumWalk tree (i - 1).toNat))) := by
  constructor
  · intro s i j h0 hij hj
    unfold sum2
    rw [if_neg (by omega)]
    simp only [sum1_construct s j (by omega) hj]
    by_cases hi0 : i - 1 < 0
    · rw [if_pos hi0]
      have hieq : i = 0 := by omega
      subst hieq
      unfold rangeSpec
      simp
    · rw [if_neg hi0]
      simp only [sum1_construct s (i - 1) (by omega) (by omega)]
      have h1 : (i - 1).toNat + 1 = i.toNat := by omega
      rw [h1]
      unfold rangeSpec
      rw [take_sub s i.toNat j.toNat (by omega)]
  · intro tree i j h0 hij hj
    unfold sum2
    rw [if_neg (by omega)]
    simp only [sum1_ok tree j (by omega) hj]
    by_cases hi0 : i - 1 < 0
    · rw [if_pos hi0]
      have hieq : i = 0 := by omega
      rw [if_pos hieq]
      simp
    · rw [if_neg hi0]
      simp only [sum1_ok tree (i - 1) (by omega) (by omega)]
      rw [if_neg (by omega : ¬ i = 0)]

/-- Witness for C6: the spec's concrete scenario `RangeSum(3, 4) = 7` on
the structure built from `[1, 6, 2, 4, 3, 5]`, and the
`PrefixSum(j) - PrefixSum(i-1)` composition on its raw buffer
`[1, 7, 2, 13, 3, 8]`. -/
theorem rangeSum_correct_witness :
    sum2 (construct [1, 6, 2, 4, 3, 5]) 3 4 =
        .ok (rangeSpec [1, 6, 2, 4, 3, 5] 3 4) ∧
      sum2 ([1, 7, 2, 13, 3, 8] : List Int) 3 4 = .ok 7 := by
  constructor
  · exact rangeSum_correct.1 [1, 6, 2, 4, 3, 5] 3 4 (by decide) (by decide)
      (by decide)
  · have h := rangeSum_correct.2 [1, 7, 2, 13, 3, 8] 3 4 (by decide)
      (by decide) (by decide)
    rw [h, if_neg (by decide : ¬ (3 : Int) = 0)]
    rw [sumWalk_eq_f _ 20 ((4 : Int).toNat) (by decide),
      sumWalk_eq_f _ 20 (((3 : Int) - 1).toNat) (by decide)]
    rfl

/-- C7 counterexample: `update(2, 1, 5)` has `i > j`; the source throws
`std::out_of_range` ("negative range") instead of returning `false`. -/
theorem update_invalidRange_not_false :
    update ([0, 0, 0] : List Int) 2 1 5 = .thrown ∧
      UpdResult.thrown ≠ UpdResult.returnedFalse [0, 0, 0] :=
  ⟨update_eq_of_f 20 _ _ _ _ _ (by decide), by decide⟩

/-- C7 as amended: when `i ≤ j` and the bounds window fails
(`i < 0` or `j + 1 ≥ n`), `update` returns `false` with the buffer
untouched; when `i > j`, `update` instead throws InvalidRange (also
leaving the buffer untouched) rather than returning `false`. -/
theorem update_reject_behavior :
    (∀ (tree : List Int) (i j v : Int), i ≤ j →
      (i < 0 ∨ (tree.length : Int) ≤ j + 1) →
      update tree i j v = .returnedFalse tree) ∧
    (∀ (tree : List Int) (i j v : Int), i > j →
      update tree i j v = .thrown) := by
  constructor
  · intro tree i j v hij hcond
    unfold update
    rw [if_neg (by omega)]
    rw [if_pos (by rcases hcond with h | h
                   · exact Or.inl h
                   · exact Or.inr (Or.inr (Or.inr h)))]
  · intro tree i j v hij
    unfold update
    rw [if_pos hij]

/-- Witness for the amended C7: a rejected window (`j + 1 = n`) returns
`false` with the buffer untouched, and a negative range throws. -/
theorem update_reject_behavior_witness :
    update ([0, 0, 0] : List Int) 0 2 7 = .returnedFalse [0, 0, 0] ∧
      update ([0, 0, 0] : List Int) 3 1 4 = .thrown :=
  ⟨update_reject_behavior.1 [0, 0, 0] 0 2 7 (by decide) (by decide),
   update_reject_behavior.2 [0, 0, 0] 3 1 4 (by decide)⟩

/-- C8: on a structure of size `n ≥ 1`, `Update(i, j, delta)` never
succeeds for any upper bound `j ≥ n - 1` and any `0 ≤ i ≤ j`: the bounds
check computes `j' = j + 1` and rejects `j' ≥ n`, so the call returns
`false` with the buffer untouched.  In particular `Update(i, n - 1, _)`
always fails, so the last logical element can never be covered by a
successful range update and the maximum updatable upper bound is
`n - 2`. -/
theorem update_last_rejected (tree : List Int) (i j v : Int)
    (_h1 : 1 ≤ tree.length) (_h0 : 0 ≤ i) (hij : i ≤ j)
    (hj : (tree.length : Int) - 1 ≤ j) :
    update tree i j v = .returnedFalse tree := by
  unfold update
  rw [if_neg (by omega)]
  rw [if_pos (Or.inr (Or.inr (Or.inr (by omega))))]

/-- Witness for C8 on a size-3 structure: `update(1, 2, 5)` (with
`j = n - 1 = 2`) returns `false`. -/
theorem update_last_rejected_witness :
    update ([0, 0, 0] : List Int) 1 2 5 = .returnedFalse [0, 0, 0] :=
  update_last_rejected [0, 0, 0] 1 2 5 (by decide) (by decide) (by decide)
    (by decide)

/-- C9: `PrefixSum(i)` fails with OutOfRange exactly when `i` is outside
`[0, n)` — in particular for `i = -1` and `i = n` when `n > 0`, and for
every `i` when `n = 0` — while the no-argument `PrefixSum()` never fails
and returns `0` on the empty structure. -/
theorem prefixSum_error_iff :
    (∀ (tree : List Int) (i : Int),
      sum1 tree i = .error .outOfRange ↔
        (i < 0 ∨ (tree.length : Int) ≤ i)) ∧
    (∀ tree : List Int, ∃ u : Int, sum0 tree = .ok u) ∧
    (∀ tree : List Int, tree.length = 0 → sum0 tree = .ok 0) := by
  refine ⟨?_, ?_, ?_⟩
  · intro tree i
    constructor
    · intro h
      by_contra hc
      push_neg at hc
      rw [sum1_ok tree i (by omega) (by omega)] at h
      cases h
    · intro hc
      unfold sum1
      rw [if_pos hc]
  · intro tree
    by_cases hz : tree.length = 0
    · exact ⟨0, by unfold sum0; rw [if_pos hz]⟩
    · refine ⟨sumWalk tree ((tree.length : Int) - 1).toNat, ?_⟩
      unfold sum0
      rw [if_neg hz]
      exact sum1_ok tree _ (by omega) (by omega)
  · intro tree hz
    unfold sum0
    rw [if_pos hz]

/-- Witness for C9: `PrefixSum(3)` and `PrefixSum(-1)` fail with
OutOfRange on a size-3 structure, and `PrefixSum()` returns `0` on the
empty structure. -/
theorem prefixSum_error_iff_witness :
    sum1 ([1, 2, 3] : List Int) 3 = .error .outOfRange ∧
      sum1 ([1, 2, 3] : List Int) (-1) = .error .outOfRange ∧
      sum0 ([] : List Int) = .ok 0 :=
  ⟨(prefixSum_error_iff.1 [1, 2, 3] 3).mpr (by decide),
   (prefixSum_error_iff.1 [1, 2, 3] (-1)).mpr (by decide),
   prefixSum_error_iff.2.2 [] rfl⟩

/-- C10: for `i > j`, both `RangeSum(i, j)` and `Update(i, j, delta)`
raise InvalidRange as a hard error (a throw, the same reporting strength
as OutOfRange), not `update`'s boolean failure flag. -/
theorem invalidRange_thrown (tree : List Int) (i j v : Int) (h : i > j) :
    sum2 tree i j = .error .invalidRange ∧ update tree i j v = .thrown := by
  constructor
  · unfold sum2; rw [if_pos h]
  · unfold update; rw [if_pos h]

/-- Witness for C10 at `i = 2 > j = 1` on a size-3 structure. -/
theorem invalidRange_thrown_witness :
    sum2 ([1, 2, 3] : List Int) 2 1 = .error .invalidRange ∧
      update ([1, 2, 3] : List Int) 2 1 5 = .thrown :=
  invalidRange_thrown [1, 2, 3] 2 1 5 (by decide)

end Fenwick
